import Mathlib

/-!
Verification of the go-aspects dependency-merger and VTA call-graph analyzers.

The definitions below are shallow embeddings of:
* `mergeJSONFiles` / `main` of the JSON fact-file merger (merge_json_deps);
* `filterValidPackages` and the package filter of the embedded simple-analyzer
  script (aspects/golang/common/vta_analyzer_bazel.go, vta_analyzer_simple.go);
* the call-graph extraction loop over the refined (VTA) graph nodes;
* the empty-result control flow of the bazel analyzer's `main`;
* `_compute_package_version_name` from the Starlark utils;
* a spec-level model of the CHA → VTA refinement pipeline (the CHA/VTA
  algorithms themselves are golang.org/x/tools library code, not part of
  this repository).
-/

/-- One element of a fact file's `nodes` list, as the merger sees it after
`json.Unmarshal` of the raw element: either the element does not parse as a
keyed object (`failed`), or it parses and may carry a string-valued
`original_label` field. The `payload` stands for the raw bytes that are
copied unchanged into the output. -/
inductive NodeParse where
  | failed : NodeParse
  | object : Option String → NodeParse
deriving DecidableEq

structure RawNode where
  payload : Nat
  parse : NodeParse
deriving DecidableEq

/-- The dedup key of a record, following `mergeJSONFiles`: a record is
deduplicated only when it parses as a keyed object whose `original_label`
field is a non-empty string; otherwise it has no key and is passed through. -/
def dedupKey (n : RawNode) : Option String :=
  match n.parse with
  | NodeParse.object (some l) => if l = "" then none else some l
  | _ => none

/-- State of the merge loop: the labels seen so far and the records kept so
far (`seenLabels` and `mergedNodes` in the source). -/
structure MergeState where
  seen : List String
  nodes : List RawNode
deriving DecidableEq

/-- One iteration of the inner loop of `mergeJSONFiles` over a record:
unparseable records and records without a non-empty label are appended
unconditionally; labeled records are appended only if the label is new. -/
def processNode (st : MergeState) (n : RawNode) : MergeState :=
  match dedupKey n with
  | some l =>
    if l ∈ st.seen then st
    else { seen := l :: st.seen, nodes := st.nodes ++ [n] }
  | none => { st with nodes := st.nodes ++ [n] }

def processNodes (st : MergeState) (ns : List RawNode) : MergeState :=
  ns.foldl processNode st

/-- An input file as the merger observes it: `missing` (skipped silently),
`unreadable` (read error: warning, skipped), `malformed` (parse error:
warning, skipped), or `parsed` with its record list. -/
inductive InputFile where
  | missing : InputFile
  | unreadable : InputFile
  | malformed : InputFile
  | parsed : List RawNode → InputFile
deriving DecidableEq

/-- One iteration of the outer loop of `mergeJSONFiles` over an input file:
only parsed files contribute records; all other cases `continue`. -/
def processFile (st : MergeState) (f : InputFile) : MergeState :=
  match f with
  | InputFile.parsed ns => processNodes st ns
  | _ => st

/-- The record list a file contributes to the merge. -/
def fileNodes (f : InputFile) : List RawNode :=
  match f with
  | InputFile.parsed ns => ns
  | _ => []

/-- Whether the merger prints a warning to standard error for this file:
only present-but-unreadable and present-but-unparseable files warn. -/
def fileWarns (f : InputFile) : Bool :=
  match f with
  | InputFile.unreadable => true
  | InputFile.malformed => true
  | _ => false

/-- The merge loop of `mergeJSONFiles` over the input files in argument
order, starting from no seen labels and no kept records. -/
def mergeJSONFiles (inputs : List InputFile) : MergeState :=
  inputs.foldl processFile { seen := [], nodes := [] }

/-- Number of warnings the merge loop writes to standard error. -/
def mergeWarnings (inputs : List InputFile) : Nat :=
  (inputs.filter fileWarns).length

/-- Exit code of the merger's `main`: usage failure when fewer than two
entries are in `os.Args` (program name plus output file), otherwise 0 unless
creating the output directory, marshalling or writing the output fails
(`writeOk = false`). -/
def mergerExit (argc : Nat) (writeOk : Bool) : Nat :=
  if argc < 2 then 1 else if writeOk then 0 else 1

theorem processFile_parsed (st : MergeState) (ns : List RawNode) :
    processFile st (InputFile.parsed ns) = processNodes st ns := rfl

theorem processFile_skip (st : MergeState) (f : InputFile) (h : fileNodes f = []) :
    processFile st f = st := by
  cases f with
  | parsed ns =>
    simp [fileNodes] at h
    simp [processFile, h, processNodes]
  | missing => rfl
  | unreadable => rfl
  | malformed => rfl

theorem processNodes_append (st : MergeState) (a b : List RawNode) :
    processNodes st (a ++ b) = processNodes (processNodes st a) b := by
  simp [processNodes, List.foldl_append]

/-- The outer loop over files is the inner loop over the concatenation of
the readable files' record lists. -/
theorem foldl_processFile_eq (inputs : List InputFile) (st : MergeState) :
    inputs.foldl processFile st = processNodes st ((inputs.map fileNodes).flatten) := by
  induction inputs generalizing st with
  | nil => simp [processNodes]
  | cons f rest ih =>
    have hf : processFile st f = processNodes st (fileNodes f) := by
      cases f <;> simp [processFile, fileNodes, processNodes]
    simp only [List.foldl_cons, List.map_cons, List.flatten, hf, ih, processNodes_append]

theorem mergeJSONFiles_eq (inputs : List InputFile) :
    mergeJSONFiles inputs = processNodes { seen := [], nodes := [] } ((inputs.map fileNodes).flatten) :=
  foldl_processFile_eq inputs _

/-- Characterization of the records with a given dedup key after the inner
loop: the result keeps what the state already had, and adds the first
occurrence from the remaining records unless the label was already seen. -/
theorem processNodes_filter_some (l : String) :
    ∀ (ns : List RawNode) (st : MergeState),
      (processNodes st ns).nodes.filter (fun n => dedupKey n == some l) =
        st.nodes.filter (fun n => dedupKey n == some l) ++
          (if l ∈ st.seen then [] else (ns.find? (fun n => dedupKey n == some l)).toList) := by
  intro ns
  induction ns with
  | nil =>
    intro st
    simp [processNodes]
  | cons n rest ih =>
    intro st
    have hstep : processNodes st (n :: rest) = processNodes (processNode st n) rest := rfl
    rw [hstep]
    rcases hd : dedupKey n with _ | k
    · have hpn : (dedupKey n == some l) = false := by simp [hd]
      have h1 : processNode st n = { st with nodes := st.nodes ++ [n] } := by
        simp [processNode, hd]
      rw [ih, h1]
      simp [List.filter_append, hpn, List.find?]
    · by_cases hk : k ∈ st.seen
      · have h1 : processNode st n = st := by simp [processNode, hd, hk]
        rw [ih, h1]
        by_cases hlk : l = k
        · subst hlk
          simp [hk]
        · have hpn : (dedupKey n == some l) = false := by
            simp [hd]
            exact fun h => hlk h.symm
          simp [List.find?, hpn]
      · have h1 : processNode st n = { seen := k :: st.seen, nodes := st.nodes ++ [n] } := by
          simp [processNode, hd, hk]
        rw [ih, h1]
        by_cases hlk : l = k
        · subst hlk
          have hpn : (dedupKey n == some l) = true := by simp [hd]
          simp [List.filter_append, List.find?, hpn, hk]
        · have hpn : (dedupKey n == some l) = false := by
            simp [hd]
            exact fun h => hlk h.symm
          by_cases hls : l ∈ st.seen
          · simp [List.filter_append, hpn, List.find?, hls, List.mem_cons]
          · simp [List.filter_append, hpn, List.find?, hls, List.mem_cons, hlk]

/-- C1: for every sequence of input fact files in argument order, the merged
output contains at most one record per distinct `original_label`, and the
record retained for a label is the first record carrying that label in
input-file traversal order (records of missing/unreadable/unparseable files
contribute nothing); later records with the same label are dropped even if
their content differs. -/
theorem c1_dedup_first_seen_wins (inputs : List InputFile) (l : String) :
    (mergeJSONFiles inputs).nodes.filter (fun n => dedupKey n == some l) =
      (((inputs.map fileNodes).flatten).find? (fun n => dedupKey n == some l)).toList := by
  rw [mergeJSONFiles_eq, processNodes_filter_some]
  simp

/-- The unlabeled records are passed through by the inner loop, in order,
never deduplicated and never dropped. -/
theorem processNodes_filter_none :
    ∀ (ns : List RawNode) (st : MergeState),
      (processNodes st ns).nodes.filter (fun n => (dedupKey n).isNone) =
        st.nodes.filter (fun n => (dedupKey n).isNone) ++
          ns.filter (fun n => (dedupKey n).isNone) := by
  intro ns
  induction ns with
  | nil =>
    intro st
    simp [processNodes]
  | cons n rest ih =>
    intro st
    have hstep : processNodes st (n :: rest) = processNodes (processNode st n) rest := rfl
    rw [hstep]
    rcases hd : dedupKey n with _ | k
    · have h1 : processNode st n = { st with nodes := st.nodes ++ [n] } := by
        simp [processNode, hd]
      rw [ih, h1]
      simp [List.filter_append, hd]
    · by_cases hk : k ∈ st.seen
      · have h1 : processNode st n = st := by simp [processNode, hd, hk]
        rw [ih, h1]
        simp [hd]
      · have h1 : processNode st n = { seen := k :: st.seen, nodes := st.nodes ++ [n] } := by
          simp [processNode, hd, hk]
        rw [ih, h1]
        simp [List.filter_append, hd]

/-- C7: every input record lacking a non-empty `original_label` (or not
parseable as a keyed object) appears unchanged in the merger's output, never
deduplicated and never dropped, even when duplicated verbatim across the
readable inputs. -/
theorem c7_pass_through (inputs : List InputFile) :
    (mergeJSONFiles inputs).nodes.filter (fun n => (dedupKey n).isNone) =
      ((inputs.map fileNodes).flatten).filter (fun n => (dedupKey n).isNone) := by
  rw [mergeJSONFiles_eq, processNodes_filter_none]
  simp

/-- Running the inner merge loop over a record list whose labels are fresh
with respect to the state and pairwise-unduplicated appends every record. -/
theorem processNodes_clean_append :
    ∀ (ms : List RawNode) (st : MergeState),
      (∀ l ∈ st.seen, ∀ n ∈ ms, dedupKey n ≠ some l) →
      (∀ l : String, (ms.filter (fun n => dedupKey n == some l)).length ≤ 1) →
      (processNodes st ms).nodes = st.nodes ++ ms := by
  intro ms
  induction ms with
  | nil =>
    intro st _ _
    simp [processNodes]
  | cons n rest ih =>
    intro st h1 h2
    have hstep : processNodes st (n :: rest) = processNodes (processNode st n) rest := rfl
    rw [hstep]
    have hrest_le : ∀ (l : String) (p : RawNode → Bool),
        (rest.filter p).length ≤ ((n :: rest).filter p).length := by
      intro l p
      rw [List.filter_cons]
      split <;> simp
    rcases hd : dedupKey n with _ | k
    · have h1' : processNode st n = { st with nodes := st.nodes ++ [n] } := by
        simp [processNode, hd]
      rw [h1', ih]
      · simp
      · intro l hl m hm
        exact h1 l hl m (List.mem_cons_of_mem _ hm)
      · intro l
        exact le_trans (hrest_le l _) (h2 l)
    · have hk : k ∉ st.seen := by
        intro hk
        exact h1 k hk n (List.mem_cons_self _ _) hd
      have h1' : processNode st n = { seen := k :: st.seen, nodes := st.nodes ++ [n] } := by
        simp [processNode, hd, hk]
      have hnone : ∀ m ∈ rest, dedupKey m ≠ some k := by
        have hpk : (dedupKey n == some k) = true := by simp [hd]
        have hlen := h2 k
        simp only [List.filter_cons, hpk, if_true, List.length_cons] at hlen
        have hnil : rest.filter (fun m => dedupKey m == some k) = [] :=
          List.length_eq_zero.mp (by omega)
        intro m hm hcontra
        have := List.filter_eq_nil_iff.mp hnil m hm
        simp [hcontra] at this
      rw [h1', ih]
      · simp
      · intro l hl m hm
        rcases List.mem_cons.mp hl with h | h
        · subst h
          exact hnone m hm
        · exact h1 l h m (List.mem_cons_of_mem _ hm)
      · intro l
        exact le_trans (hrest_le l _) (h2 l)

/-- C8: merging an already-merged output with itself as the sole input
produces the same record list. -/
theorem c8_idempotent (inputs : List InputFile) :
    (mergeJSONFiles [InputFile.parsed (mergeJSONFiles inputs).nodes]).nodes =
      (mergeJSONFiles inputs).nodes := by
  have hclean : ∀ l : String,
      ((mergeJSONFiles inputs).nodes.filter (fun n => dedupKey n == some l)).length ≤ 1 := by
    intro l
    rw [c1_dedup_first_seen_wins]
    cases ((inputs.map fileNodes).flatten).find? (fun n => dedupKey n == some l) <;>
      simp [Option.toList]
  have hmain : mergeJSONFiles [InputFile.parsed (mergeJSONFiles inputs).nodes] =
      processNodes { seen := [], nodes := [] } (mergeJSONFiles inputs).nodes := by
    rw [mergeJSONFiles_eq]
    simp [fileNodes]
  rw [hmain, processNodes_clean_append]
  · simp
  · intro l hl
    simp at hl
  · exact hclean

/-- C6 (counterexample to the claim as stated): an invocation of the merger
with no positional arguments (`os.Args` has length 1) exits 1 through the
usage check even though no output write failure occurred (`writeOk = true`),
so the process does not exit non-zero only on output write failure. -/
theorem c6_counterexample : mergerExit 1 true = 1 := by decide

/-- C6 (amended): for every invocation that supplies the output-file
argument, a missing input file is skipped with no diagnostic and no error; a
present-but-unreadable or unparseable input file is skipped after exactly one
warning on standard error; processing of the remaining inputs continues
unchanged in every case; and such an invocation exits non-zero exactly on
output write failure. (An invocation with no arguments fails fast with exit
code 1 before any merging.) -/
theorem c6_amended (st : MergeState) (pre post : List InputFile) (k : Nat) (writeOk : Bool) :
    processFile st InputFile.missing = st ∧
    processFile st InputFile.unreadable = st ∧
    processFile st InputFile.malformed = st ∧
    fileWarns InputFile.missing = false ∧
    fileWarns InputFile.unreadable = true ∧
    fileWarns InputFile.malformed = true ∧
    mergeJSONFiles (pre ++ InputFile.missing :: post) = mergeJSONFiles (pre ++ post) ∧
    mergeWarnings (pre ++ InputFile.missing :: post) = mergeWarnings (pre ++ post) ∧
    mergeJSONFiles (pre ++ InputFile.unreadable :: post) = mergeJSONFiles (pre ++ post) ∧
    mergeWarnings (pre ++ InputFile.unreadable :: post) = mergeWarnings (pre ++ post) + 1 ∧
    mergeJSONFiles (pre ++ InputFile.malformed :: post) = mergeJSONFiles (pre ++ post) ∧
    mergeWarnings (pre ++ InputFile.malformed :: post) = mergeWarnings (pre ++ post) + 1 ∧
    mergerExit (k + 2) writeOk = (if writeOk then 0 else 1) := by
  refine ⟨rfl, rfl, rfl, rfl, rfl, rfl, ?_, ?_, ?_, ?_, ?_, ?_, ?_⟩
  · simp [mergeJSONFiles, List.foldl_append, processFile]
  · simp [mergeWarnings, List.filter_append, List.filter_cons, fileWarns]
  · simp [mergeJSONFiles, List.foldl_append, processFile]
  · simp [mergeWarnings, List.filter_append, List.filter_cons, fileWarns]
    omega
  · simp [mergeJSONFiles, List.foldl_append, processFile]
  · simp [mergeWarnings, List.filter_append, List.filter_cons, fileWarns]
    omega
  · simp [mergerExit]

/-- A loaded package as the filters observe it: `synCount` is the `Syntax`
slice (`none` for a nil slice, otherwise its length) and `typesNonNil`
records whether the `Types` handle is non-nil. -/
structure GoPackage where
  synCount : Option Nat
  typesNonNil : Bool
deriving DecidableEq

/-- `len(pkg.Syntax)` (Go's `len` of a nil slice is 0). -/
def synLenNat (p : GoPackage) : Nat := p.synCount.getD 0

/-- `pkg.Syntax != nil && len(pkg.Syntax) > 0` from `filterValidPackages`. -/
def hasSyn (p : GoPackage) : Bool := !p.synCount.isNone && decide (0 < synLenNat p)

/-- `pkg.Types != nil`. -/
def hasTyp (p : GoPackage) : Bool := p.typesNonNil

/-- `filterValidPackages` of the bazel analyzer: accepts packages with
syntax (source) OR types (stdlib). -/
def filterValidPackages (pkgs : List GoPackage) : List GoPackage :=
  pkgs.filter (fun p => hasSyn p || hasTyp p)

/-- The package filter of the embedded simple-analyzer script:
`pkg.Types != nil && len(pkg.Syntax) > 0`. -/
def filterValidSimple (pkgs : List GoPackage) : List GoPackage :=
  pkgs.filter (fun p => hasTyp p && decide (0 < synLenNat p))

/-- C5 (counterexample to the claim as stated): a package with resolved type
information but no parsed syntax (a nil `Syntax` slice) is accepted by the
bazel analyzer's `filterValidPackages` and hence included in the set passed
to SSA construction, although it has only one of the two. -/
theorem c5_counterexample :
    GoPackage.mk none true ∈ filterValidPackages [GoPackage.mk none true] ∧
    hasSyn (GoPackage.mk none true) = false := by decide

/-- C5 (amended): the bazel analyzer includes a package in the analysis set
iff it has parsed syntax OR resolved type information (either alone
suffices), while the embedded simple-analyzer script includes a package iff
it has both resolved types and non-empty parsed syntax; in both, the
excluded packages are merely dropped from the list, so their presence does
not abort the run. -/
theorem c5_amended (pkgs : List GoPackage) (p : GoPackage) :
    (p ∈ filterValidPackages pkgs ↔ p ∈ pkgs ∧ (hasSyn p = true ∨ hasTyp p = true)) ∧
    (p ∈ filterValidSimple pkgs ↔ p ∈ pkgs ∧ (hasTyp p = true ∧ 0 < synLenNat p)) := by
  constructor
  · simp [filterValidPackages, List.mem_filter]
  · simp [filterValidSimple, List.mem_filter]

/-- A function node of the SSA-like representation, as far as the refinement
pipeline is concerned: its rendered name and whether it is a synthetic
wrapper introduced by representation building. -/
structure SsaFn where
  fnName : String
  isSynthetic : Bool
deriving DecidableEq

/-- A call graph as a finite list of caller/callee edges. -/
structure CGraph where
  edges : List (SsaFn × SsaFn)
deriving DecidableEq

/-- Modelled from the spec: `DeleteSyntheticNodes` removes the
synthetic/wrapper nodes introduced purely by representation building, so an
edge survives exactly when neither endpoint is synthetic. The real
implementation lives in golang.org/x/tools (not in this repository). -/
def deleteSyntheticNodes (g : CGraph) : CGraph :=
  CGraph.mk (g.edges.filter (fun e => !e.1.isSynthetic && !e.2.isSynthetic))

/-- Modelled from the spec: `vta.CallGraph` is a points-to/type-flow
refinement seeded by the CHA graph that prunes CHA edges that are
structurally possible but type-flow-infeasible (`feasible` is the oracle of
the type-flow analysis). The real implementation lives in
golang.org/x/tools (not in this repository). -/
def vtaCallGraph (feasible : SsaFn × SsaFn → Bool) (seed : CGraph) : CGraph :=
  CGraph.mk (seed.edges.filter feasible)

/-- The refinement pipeline of both analyzers:
`chaCG.DeleteSyntheticNodes(); vtaCG := vta.CallGraph(allFuncs, chaCG);
vtaCG.DeleteSyntheticNodes()`. -/
def vtaRefinementPipeline (feasible : SsaFn × SsaFn → Bool) (chaGraph : CGraph) : CGraph :=
  deleteSyntheticNodes (vtaCallGraph feasible (deleteSyntheticNodes chaGraph))

/-- C2: for the same input program, the number of call edges retained after
the VTA refinement pass is at most the number of edges of the unrefined CHA
call graph — refinement only removes edges, never adds them. -/
theorem c2_soundness_ordering (chaGraph : CGraph) (feasible : SsaFn × SsaFn → Bool) :
    (vtaRefinementPipeline feasible chaGraph).edges.length ≤ chaGraph.edges.length := by
  refine le_trans (List.length_filter_le _ _) (le_trans (List.length_filter_le _ _) ?_)
  exact List.length_filter_le _ _

/-- A non-nil node of the refined call graph as the extraction loop sees it:
`name` is the computed qualified caller name (`pkgPath.localName`, or the
bare name without package linkage) and `callees` the qualified names of the
callees of its non-nil outgoing edges, one entry per call edge, in edge
order. -/
structure ExtNode where
  name : String
  callees : List String
deriving DecidableEq

/-- Go map assignment `m[k] = v` on an association list. -/
def insertEntry : List (String × List String) → String → List String → List (String × List String)
  | [], k, v => [(k, v)]
  | (k', v') :: rest, k, v =>
    if k' = k then (k, v) :: rest else (k', v') :: insertEntry rest k v

/-- Go map key insertion (`m[k] = ...` restricted to the key set). -/
def insertKey (ks : List String) (k : String) : List String :=
  if k ∈ ks then ks else ks ++ [k]

/-- First-occurrence deduplication of a list of names. -/
def dedupFirst (l : List String) : List String := l.foldl insertKey []

/-- Accumulator of the extraction loop: the legacy `callGraph` adjacency
map, the key set of the `functions` map, the `callEdges` list (caller name,
callee name), and the running `totalEdges` counter. -/
structure CGAcc where
  callGraph : List (String × List String)
  functions : List String
  callEdges : List (String × String)
  totalEdges : Nat
deriving DecidableEq

/-- One iteration of `for fn, node := range vtaCG.Nodes`: record the caller
in `functions`; for every outgoing edge record the callee in `functions`,
append the callee name, append the call edge and bump `totalEdges`; then, if
at least one callee was collected, assign `callGraph[funcName] = callees`.
(The bazel analyzer's loop is the same minus the `functions`/`callEdges`
bookkeeping.) -/
def extractStep (acc : CGAcc) (n : ExtNode) : CGAcc :=
  let fns := (n.callees).foldl insertKey (insertKey acc.functions n.name)
  let edges := acc.callEdges ++ n.callees.map (fun c => (n.name, c))
  let te := acc.totalEdges + n.callees.length
  if n.callees.isEmpty then
    { callGraph := acc.callGraph, functions := fns, callEdges := edges, totalEdges := te }
  else
    { callGraph := insertEntry acc.callGraph n.name n.callees, functions := fns,
      callEdges := edges, totalEdges := te }

/-- The extraction loop over all (non-nil) nodes of the refined graph. -/
def extractCG (ns : List ExtNode) : CGAcc :=
  ns.foldl extractStep { callGraph := [], functions := [], callEdges := [], totalEdges := 0 }

/-- The caller names of the nodes that have at least one retained outgoing
edge, in loop order. -/
def eligNames (ns : List ExtNode) : List String :=
  (ns.filter (fun n => !n.callees.isEmpty)).map (fun n => n.name)

theorem insertEntry_keys (m : List (String × List String)) (k : String) (v : List String) :
    (insertEntry m k v).map Prod.fst = insertKey (m.map Prod.fst) k := by
  induction m with
  | nil => simp [insertEntry, insertKey]
  | cons p rest ih =>
    obtain ⟨k', v'⟩ := p
    by_cases h : k' = k
    · subst h
      simp [insertEntry, insertKey, List.mem_cons]
    · simp only [insertEntry, if_neg h, List.map_cons]
      rw [ih]
      by_cases hmem : k ∈ rest.map Prod.fst
      · simp [insertKey, hmem, List.mem_cons]
      · have : ¬ k ∈ (k' :: rest.map Prod.fst) := by
          simp [List.mem_cons, hmem]
          exact fun hc => h hc.symm
        simp [insertKey, hmem, this]

theorem eligNames_cons (n : ExtNode) (rest : List ExtNode) :
    eligNames (n :: rest) =
      if n.callees.isEmpty then eligNames rest else n.name :: eligNames rest := by
  by_cases h : n.callees.isEmpty <;> simp [eligNames, List.filter_cons, h]

/-- The key set of the adjacency map built by the extraction loop is the
first-occurrence deduplication of the eligible caller names. -/
theorem extract_keys :
    ∀ (ns : List ExtNode) (acc : CGAcc),
      ((ns.foldl extractStep acc).callGraph).map Prod.fst =
        (eligNames ns).foldl insertKey (acc.callGraph.map Prod.fst) := by
  intro ns
  induction ns with
  | nil =>
    intro acc
    simp [eligNames]
  | cons n rest ih =>
    intro acc
    rw [List.foldl_cons, ih, eligNames_cons]
    by_cases h : n.callees.isEmpty
    · simp [extractStep, h]
    · simp [extractStep, h, insertEntry_keys]

theorem extract_totalFuncs (ns : List ExtNode) :
    (extractCG ns).callGraph.length = (dedupFirst (eligNames ns)).length := by
  have h := extract_keys ns { callGraph := [], functions := [], callEdges := [], totalEdges := 0 }
  have h2 : ((extractCG ns).callGraph.map Prod.fst).length = (dedupFirst (eligNames ns)).length := by
    rw [extractCG, h]
    rfl
  simpa using h2

theorem mem_insertKey (ks : List String) (a k : String) :
    k ∈ insertKey ks a ↔ k ∈ ks ∨ k = a := by
  by_cases h : a ∈ ks
  · simp only [insertKey, if_pos h]
    constructor
    · exact Or.inl
    · rintro (hk | rfl)
      · exact hk
      · exact h
  · simp [insertKey, if_neg h, List.mem_append]

theorem mem_foldl_insertKey :
    ∀ (l : List String) (acc : List String) (k : String),
      k ∈ l.foldl insertKey acc ↔ k ∈ acc ∨ k ∈ l := by
  intro l
  induction l with
  | nil => simp
  | cons a rest ih =>
    intro acc k
    rw [List.foldl_cons, ih, mem_insertKey]
    simp [List.mem_cons]
    tauto

theorem mem_dedupFirst (l : List String) (k : String) :
    k ∈ dedupFirst l ↔ k ∈ l := by
  rw [dedupFirst, mem_foldl_insertKey]
  simp

theorem lookup_isSome_iff (m : List (String × List String)) (k : String) :
    (List.lookup k m).isSome ↔ k ∈ m.map Prod.fst := by
  induction m with
  | nil => simp [List.lookup]
  | cons p rest ih =>
    obtain ⟨k', v'⟩ := p
    by_cases h : k = k'
    · subst h
      simp [List.lookup]
    · have hb : (k == k') = false := by simp [h]
      simp [List.lookup, hb, ih, List.mem_cons, h]

theorem lookup_insertEntry_self (m : List (String × List String)) (k : String) (v : List String) :
    List.lookup k (insertEntry m k v) = some v := by
  induction m with
  | nil => simp [insertEntry, List.lookup]
  | cons p rest ih =>
    obtain ⟨k', v'⟩ := p
    by_cases h : k' = k
    · subst h
      simp [insertEntry, List.lookup]
    · have hb : (k == k') = false := by
        simp
        exact fun hc => h hc.symm
      simp [insertEntry, h, List.lookup, hb, ih]

theorem lookup_insertEntry_ne (m : List (String × List String)) (k k' : String) (v : List String)
    (h : k ≠ k') : List.lookup k (insertEntry m k' v) = List.lookup k m := by
  induction m with
  | nil =>
    have hb : (k == k') = false := by simp [h]
    simp [insertEntry, List.lookup, hb]
  | cons p rest ih =>
    obtain ⟨a, b⟩ := p
    by_cases ha : a = k'
    · subst ha
      have hb : (k == a) = false := by simp [h]
      simp [insertEntry, List.lookup, hb]
    · simp only [insertEntry, if_neg ha]
      by_cases hak : k = a
      · subst hak
        simp [List.lookup]
      · have hb : (k == a) = false := by simp [hak]
        simp [List.lookup, hb, ih]

/-- Nodes whose name differs from `k` never touch the adjacency entry of
`k`. -/
theorem extract_lookup_frozen :
    ∀ (ns : List ExtNode) (acc : CGAcc) (k : String),
      (∀ n ∈ ns, n.name ≠ k) →
      List.lookup k ((ns.foldl extractStep acc).callGraph) = List.lookup k acc.callGraph := by
  intro ns
  induction ns with
  | nil =>
    intro acc k _
    rfl
  | cons n rest ih =>
    intro acc k h
    rw [List.foldl_cons, ih _ _ (fun m hm => h m (List.mem_cons_of_mem _ hm))]
    have hn : n.name ≠ k := h n (List.mem_cons_self _ _)
    by_cases hc : n.callees.isEmpty
    · simp [extractStep, hc]
    · simp [extractStep, hc, lookup_insertEntry_ne _ _ _ _ (fun hk => hn hk.symm)]

/-- When the qualified caller names are pairwise distinct, the adjacency
entry of a caller with at least one retained outgoing edge is exactly its
uncollapsed callee-name list. -/
theorem extract_lookup_node :
    ∀ (ns : List ExtNode) (acc : CGAcc),
      (ns.map (fun n => n.name)).Nodup →
      ∀ n ∈ ns, n.callees ≠ [] →
        List.lookup n.name ((ns.foldl extractStep acc).callGraph) = some n.callees := by
  intro ns
  induction ns with
  | nil =>
    intro acc _ n hn
    simp at hn
  | cons m rest ih =>
    intro acc hnd n hn hne
    have hnd' := hnd
    rw [List.map_cons, List.nodup_cons] at hnd'
    obtain ⟨hnotin, hrest⟩ := hnd'
    rcases List.mem_cons.mp hn with rfl | hmem
    · rw [List.foldl_cons]
      have hfrozen : ∀ p ∈ rest, p.name ≠ n.name := by
        intro p hp hc
        exact hnotin (hc ▸ List.mem_map_of_mem (fun q => q.name) hp)
      rw [extract_lookup_frozen rest _ _ hfrozen]
      have hc : n.callees.isEmpty = false := by
        cases h : n.callees with
        | nil => exact absurd h hne
        | cons a l => simp [h]
      simp [extractStep, hc, lookup_insertEntry_self]
    · rw [List.foldl_cons]
      exact ih _ hrest n hmem hne

/-- The `callEdges` list is the uncollapsed concatenation of each node's
(caller name, callee name) pairs, one per retained call edge. -/
theorem extract_callEdges :
    ∀ (ns : List ExtNode) (acc : CGAcc),
      (ns.foldl extractStep acc).callEdges =
        acc.callEdges ++ (ns.map (fun n => n.callees.map (fun c => (n.name, c)))).flatten := by
  intro ns
  induction ns with
  | nil =>
    intro acc
    simp
  | cons n rest ih =>
    intro acc
    rw [List.foldl_cons, ih]
    by_cases hc : n.callees.isEmpty <;>
      simp [extractStep, hc, List.append_assoc]

theorem functions_step_mono (acc : CGAcc) (n : ExtNode) (x : String) (hx : x ∈ acc.functions) :
    x ∈ (extractStep acc n).functions := by
  have h1 : x ∈ insertKey acc.functions n.name := (mem_insertKey _ _ _).mpr (Or.inl hx)
  have h2 : x ∈ (n.callees).foldl insertKey (insertKey acc.functions n.name) :=
    (mem_foldl_insertKey _ _ _).mpr (Or.inl h1)
  by_cases hc : n.callees.isEmpty <;> simp [extractStep, hc, h2]

theorem functions_fold_mono :
    ∀ (ns : List ExtNode) (acc : CGAcc) (x : String), x ∈ acc.functions →
      x ∈ ((ns.foldl extractStep acc).functions) := by
  intro ns
  induction ns with
  | nil =>
    intro acc x hx
    exact hx
  | cons n rest ih =>
    intro acc x hx
    exact ih _ x (functions_step_mono acc n x hx)

/-- Every callee name reached by some retained edge is recorded in the
`functions` map, whether or not that name ever occurs as a caller. -/
theorem callee_mem_functions :
    ∀ (ns : List ExtNode) (acc : CGAcc) (c : String),
      (∃ n ∈ ns, c ∈ n.callees) → c ∈ ((ns.foldl extractStep acc).functions) := by
  intro ns
  induction ns with
  | nil =>
    intro acc c hc
    simp at hc
  | cons n rest ih =>
    intro acc c hc
    obtain ⟨m, hm, hcm⟩ := hc
    rcases List.mem_cons.mp hm with rfl | hmem
    · rw [List.foldl_cons]
      apply functions_fold_mono rest (extractStep acc m) c
      have h2 : c ∈ (m.callees).foldl insertKey (insertKey acc.functions m.name) :=
        (mem_foldl_insertKey _ _ _).mpr (Or.inr hcm)
      by_cases hce : m.callees.isEmpty <;> simp [extractStep, hce, h2]
    · rw [List.foldl_cons]
      exact ih _ c ⟨m, hmem, hcm⟩

/-- C3 (counterexample to the claim as stated): a caller with two distinct
call sites reaching the same callee gets an adjacency entry listing that
callee name twice — the legacy `call_graph` map does not collapse
multiplicities. -/
theorem c3_counterexample :
    List.lookup "p.f" (extractCG [ExtNode.mk "p.f" ["q.g", "q.g"]]).callGraph =
      some ["q.g", "q.g"] ∧
    (["q.g", "q.g"].count "q.g") = 2 := by decide

/-- C3 (amended): the legacy `call_graph` adjacency map keeps the
uncollapsed callee-name list per caller: when caller qualified names are
pairwise distinct, the entry of every caller with at least one retained
outgoing edge lists one callee name per call edge (duplicates included),
and `callEdges` carries exactly the same per-edge caller/callee pairs. -/
theorem c3_amended (ns : List ExtNode) (hnd : (ns.map (fun n => n.name)).Nodup) :
    (∀ n ∈ ns, n.callees ≠ [] →
      List.lookup n.name (extractCG ns).callGraph = some n.callees) ∧
    (extractCG ns).callEdges =
      (ns.map (fun n => n.callees.map (fun c => (n.name, c)))).flatten := by
  constructor
  · intro n hn hne
    exact extract_lookup_node ns _ hnd n hn hne
  · have h := extract_callEdges ns
      { callGraph := [], functions := [], callEdges := [], totalEdges := 0 }
    simpa [extractCG] using h

/-- C3 witness: the amended statement evaluated on a concrete node list. -/
theorem c3_amended_witness :
    List.lookup "p.f" (extractCG [ExtNode.mk "p.f" ["q.g", "q.g"],
      ExtNode.mk "p.h" ["q.g"]]).callGraph = some ["q.g", "q.g"] :=
  (c3_amended [ExtNode.mk "p.f" ["q.g", "q.g"], ExtNode.mk "p.h" ["q.g"]]
      (by decide)).1
    (ExtNode.mk "p.f" ["q.g", "q.g"]) (by decide) (by decide)

/-- C10 (counterexample to the claim as stated): two distinct caller
functions that share a qualified name (e.g. same-named methods of two types
in one package), both with retained outgoing edges, are collapsed into one
`call_graph` key, so `total_functions` (= 1) is not the number of caller
functions with at least one retained outgoing call edge (= 2). -/
theorem c10_counterexample :
    (extractCG [ExtNode.mk "p.Foo" ["q.g"], ExtNode.mk "p.Foo" ["q.h"]]).callGraph.length = 1 ∧
    (([ExtNode.mk "p.Foo" ["q.g"], ExtNode.mk "p.Foo" ["q.h"]].filter
        (fun n => !n.callees.isEmpty)).length) = 2 := by decide

/-- C10 (amended): `total_functions` (the size of the `call_graph` map)
equals the number of distinct caller qualified names having at least one
retained outgoing call edge; a name with no outgoing edges never appears as
a `call_graph` key even if it occurs as a callee — and every callee name is
nevertheless recorded in the `functions` map. -/
theorem c10_total_functions (ns : List ExtNode) :
    (extractCG ns).callGraph.length = (dedupFirst (eligNames ns)).length ∧
    (∀ k : String,
      (List.lookup k (extractCG ns).callGraph).isSome ↔
        ∃ n ∈ ns, n.name = k ∧ n.callees ≠ []) ∧
    (∀ c : String, (∃ n ∈ ns, c ∈ n.callees) → c ∈ (extractCG ns).functions) := by
  refine ⟨extract_totalFuncs ns, ?_, ?_⟩
  · intro k
    rw [lookup_isSome_iff]
    have hkeys := extract_keys ns
      { callGraph := [], functions := [], callEdges := [], totalEdges := 0 }
    have : (extractCG ns).callGraph.map Prod.fst = dedupFirst (eligNames ns) := by
      rw [extractCG, hkeys]
      rfl
    rw [this, mem_dedupFirst]
    simp only [eligNames, List.mem_map, List.mem_filter]
    constructor
    · rintro ⟨n, ⟨hn, hne⟩, rfl⟩
      refine ⟨n, hn, rfl, ?_⟩
      cases h : n.callees with
      | nil => simp [h] at hne
      | cons a l => simp
    · rintro ⟨n, hn, rfl, hne⟩
      refine ⟨n, ⟨hn, ?_⟩, rfl⟩
      cases h : n.callees with
      | nil => exact absurd h hne
      | cons a l => simp
  · intro c hc
    exact callee_mem_functions ns _ c hc

/-- C10 witness: the amended statement evaluated on a concrete node list
where a callee-only name appears in `functions` but not as a key. -/
theorem c10_total_functions_witness :
    (extractCG [ExtNode.mk "p.f" ["q.g"]]).callGraph.length =
      (dedupFirst (eligNames [ExtNode.mk "p.f" ["q.g"]])).length ∧
    "q.g" ∈ (extractCG [ExtNode.mk "p.f" ["q.g"]]).functions :=
  ⟨(c10_total_functions [ExtNode.mk "p.f" ["q.g"]]).1,
    (c10_total_functions [ExtNode.mk "p.f" ["q.g"]]).2.2 "q.g"
      ⟨ExtNode.mk "p.f" ["q.g"], by decide, by decide⟩⟩

/-- The serialized result of the bazel analyzer (`CallGraphResult`). -/
structure CallGraphResultM where
  packageID : String
  packageName : String
  importPath : String
  callGraph : List (String × List String)
  totalFuncs : Nat
  totalEdges : Nat
  algorithm : String
deriving DecidableEq

/-- The empty well-formed result emitted on the degraded paths. -/
def emptyResult (tid tname tpath : String) : CallGraphResultM :=
  { packageID := tid, packageName := tname, importPath := tpath, callGraph := [],
    totalFuncs := 0, totalEdges := 0, algorithm := "VTA" }

/-- Control flow of the bazel analyzer's `main` after the packages file has
been read and parsed: if the loading strategies produced no packages, or
filtering left no valid packages, write the empty result and return;
otherwise run the SSA/CHA/VTA pipeline (abstracted as `pipeline`, which
yields the refined graph's nodes), extract, and write the populated result.
The second component is the process exit code; `writeOk` tells whether
creating the output directory, marshalling and writing the file succeed
(`writeResult` calls `log.Fatalf`, exit 1, otherwise). -/
def builderRun (tid tname tpath : String) (pkgs : List GoPackage)
    (pipeline : List GoPackage → List ExtNode) (writeOk : Bool) :
    CallGraphResultM × Nat :=
  if pkgs.isEmpty then
    (emptyResult tid tname tpath, if writeOk then 0 else 1)
  else if (filterValidPackages pkgs).isEmpty then
    (emptyResult tid tname tpath, if writeOk then 0 else 1)
  else
    let acc := extractCG (pipeline (filterValidPackages pkgs))
    ({ packageID := tid, packageName := tname, importPath := tpath,
       callGraph := acc.callGraph, totalFuncs := acc.callGraph.length,
       totalEdges := acc.totalEdges, algorithm := "VTA" }, if writeOk then 0 else 1)

/-- C4: whenever the loaded packages yield zero usable packages (in
particular when loading produced none at all), the call-graph builder still
writes a well-formed result with `total_functions = 0`, `total_edges = 0`
and `algorithm = "VTA"`, and (the output write succeeding) exits 0 instead
of escalating to a process failure. -/
theorem c4_empty_safety (tid tname tpath : String) (pkgs : List GoPackage)
    (pipeline : List GoPackage → List ExtNode)
    (h : filterValidPackages pkgs = []) :
    builderRun tid tname tpath pkgs pipeline true = (emptyResult tid tname tpath, 0) ∧
    (emptyResult tid tname tpath).totalFuncs = 0 ∧
    (emptyResult tid tname tpath).totalEdges = 0 ∧
    (emptyResult tid tname tpath).algorithm = "VTA" := by
  refine ⟨?_, rfl, rfl, rfl⟩
  by_cases hp : pkgs.isEmpty
  · simp [builderRun, hp]
  · simp [builderRun, hp, h]

/-- C4 witness: the empty-safety statement evaluated on a packages file with
an empty `Packages` list. -/
theorem c4_empty_safety_witness :
    builderRun "" "" "unknown" [] (fun _ => []) true = (emptyResult "" "" "unknown", 0) :=
  (c4_empty_safety "" "" "unknown" [] (fun _ => []) (by decide)).1

/-- Starlark `s.replace(pat, repl)`: replace every non-overlapping leftmost
occurrence of `pat` by `repl`. The fuel argument (instantiated with the
length of the scanned list, an upper bound on the number of scanning steps)
only makes the recursion structural; with `fuel ≥ s.length` the result is
the usual replacement. -/
def replaceAux (pat repl : List Char) : Nat → List Char → List Char
  | _, [] => []
  | 0, s => s
  | fuel + 1, c :: rest =>
    if pat ≠ [] ∧ pat.isPrefixOf (c :: rest) then
      repl ++ replaceAux pat repl fuel (List.drop (pat.length - 1) rest)
    else
      c :: replaceAux pat repl fuel rest

def replaceAll (pat repl s : List Char) : List Char := replaceAux pat repl s.length s

/-- `target_path[1:]` guarded by `target_path.startswith("_")`. -/
def stripLeadUnderscore (l : List Char) : List Char :=
  match l with
  | c :: rest => if c = '_' then rest else c :: rest
  | [] => []

/-- `_compute_package_version_name` from the Starlark utils: replace
`"@//"` by `"_"`, drop `"@"`, replace `"//:"`, `"/"` and `":"` by `"_"`,
then strip one leading underscore. -/
def computeNameChars (target : List Char) : List Char :=
  stripLeadUnderscore
    (replaceAll [':'] ['_']
      (replaceAll ['/'] ['_']
        (replaceAll ['/', '/', ':'] ['_']
          (replaceAll ['@'] []
            (replaceAll ['@', '/', '/'] ['_'] target)))))

def compute_package_version_name (target : String) : String :=
  String.mk (computeNameChars target.data)

/-- Replacement never introduces a character that occurs neither in the
input nor in the replacement string. -/
theorem not_mem_replaceAux (pat repl : List Char) (c : Char) (hr : c ∉ repl) :
    ∀ (fuel : Nat) (s : List Char), c ∉ s → c ∉ replaceAux pat repl fuel s := by
  intro fuel
  induction fuel with
  | zero =>
    intro s hs
    cases s with
    | nil => simp [replaceAux]
    | cons a rest => simpa [replaceAux] using hs
  | succ n ih =>
    intro s hs
    cases s with
    | nil => simp [replaceAux]
    | cons a rest =>
      rw [replaceAux]
      split
      · intro hmem
        rcases List.mem_append.mp hmem with h | h
        · exact hr h
        · have hdrop : c ∉ List.drop (pat.length - 1) rest := by
            intro hd
            exact hs (List.mem_cons_of_mem _ ((List.drop_sublist _ _).mem hd))
          exact ih _ hdrop h
      · intro hmem
        rcases List.mem_cons.mp hmem with rfl | h
        · exact hs (List.mem_cons_self _ _)
        · exact ih rest (fun hc => hs (List.mem_cons_of_mem _ hc)) h

/-- Replacing a single-character pattern eliminates that character, provided
the replacement does not contain it. -/
theorem not_mem_replaceAux_single (a : Char) (repl : List Char) (hr : a ∉ repl) :
    ∀ (fuel : Nat) (s : List Char), s.length ≤ fuel → a ∉ replaceAux [a] repl fuel s := by
  intro fuel
  induction fuel with
  | zero =>
    intro s hlen
    have : s = [] := List.length_eq_zero.mp (Nat.le_zero.mp hlen)
    subst this
    simp [replaceAux]
  | succ n ih =>
    intro s hlen
    cases s with
    | nil => simp [replaceAux]
    | cons c rest =>
      rw [replaceAux]
      by_cases hac : a = c
      · subst hac
        have hcond : ([a] ≠ ([] : List Char) ∧ ([a]).isPrefixOf (a :: rest)) := by
          constructor
          · simp
          · simp [List.isPrefixOf]
        rw [if_pos hcond]
        intro hmem
        rcases List.mem_append.mp hmem with h | h
        · exact hr h
        · have hlen' : (List.drop 0 rest).length ≤ n := by
            simpa using Nat.le_of_succ_le_succ hlen
          simpa using ih (List.drop 0 rest) hlen' (by simpa using h)
      · have hcond : ¬ (([a] ≠ ([] : List Char)) ∧ ([a]).isPrefixOf (c :: rest)) := by
          rintro ⟨-, hpre⟩
          simp [List.isPrefixOf] at hpre
          exact hac hpre
        rw [if_neg hcond]
        intro hmem
        rcases List.mem_cons.mp hmem with h | h
        · exact hac h
        · exact ih rest (Nat.le_of_succ_le_succ hlen) h

theorem not_mem_stripLeadUnderscore (c : Char) (l : List Char) (h : c ∉ l) :
    c ∉ stripLeadUnderscore l := by
  cases l with
  | nil => simp [stripLeadUnderscore]
  | cons a rest =>
    by_cases ha : a = '_'
    · simp only [stripLeadUnderscore, if_pos ha]
      exact fun hc => h (List.mem_cons_of_mem _ hc)
    · simp only [stripLeadUnderscore, if_neg ha]
      exact h

/-- C9 (counterexample to the claim as stated): the naming function is not
collision-free — the two distinct labels `//a:b/c` and `//a/b:c` (target
names may contain `/`) map to the same output filename stem. -/
theorem c9_counterexample :
    compute_package_version_name "//a:b/c" = compute_package_version_name "//a/b:c" ∧
    ("//a:b/c" : String) ≠ "//a/b:c" := by decide

/-- C9 (amended): the naming function is a deterministic pure function of
the label in which every path separator `/` and every label-syntax
character `:` and `@` has been replaced or removed (with one leading
underscore stripped) — but it is not collision-free over distinct labels. -/
theorem c9_separator_free (t : String) :
    '/' ∉ (compute_package_version_name t).data ∧
    ':' ∉ (compute_package_version_name t).data ∧
    '@' ∉ (compute_package_version_name t).data := by
  show '/' ∉ computeNameChars t.data ∧ ':' ∉ computeNameChars t.data ∧
    '@' ∉ computeNameChars t.data
  generalize t.data = s
  have hat2 : '@' ∉ replaceAll ['@'] [] (replaceAll ['@', '/', '/'] ['_'] s) :=
    not_mem_replaceAux_single '@' [] (by simp) _ _ (le_refl _)
  have hat3 : '@' ∉ replaceAll ['/', '/', ':'] ['_']
      (replaceAll ['@'] [] (replaceAll ['@', '/', '/'] ['_'] s)) :=
    not_mem_replaceAux _ _ _ (by simp) _ _ hat2
  have hat4 : '@' ∉ replaceAll ['/'] ['_'] (replaceAll ['/', '/', ':'] ['_']
      (replaceAll ['@'] [] (replaceAll ['@', '/', '/'] ['_'] s))) :=
    not_mem_replaceAux _ _ _ (by simp) _ _ hat3
  have hat5 : '@' ∉ replaceAll [':'] ['_'] (replaceAll ['/'] ['_']
      (replaceAll ['/', '/', ':'] ['_']
        (replaceAll ['@'] [] (replaceAll ['@', '/', '/'] ['_'] s)))) :=
    not_mem_replaceAux _ _ _ (by simp) _ _ hat4
  have hsl4 : '/' ∉ replaceAll ['/'] ['_'] (replaceAll ['/', '/', ':'] ['_']
      (replaceAll ['@'] [] (replaceAll ['@', '/', '/'] ['_'] s))) :=
    not_mem_replaceAux_single '/' ['_'] (by simp) _ _ (le_refl _)
  have hsl5 : '/' ∉ replaceAll [':'] ['_'] (replaceAll ['/'] ['_']
      (replaceAll ['/', '/', ':'] ['_']
        (replaceAll ['@'] [] (replaceAll ['@', '/', '/'] ['_'] s)))) :=
    not_mem_replaceAux _ _ _ (by simp) _ _ hsl4
  have hco5 : ':' ∉ replaceAll [':'] ['_'] (replaceAll ['/'] ['_']
      (replaceAll ['/', '/', ':'] ['_']
        (replaceAll ['@'] [] (replaceAll ['@', '/', '/'] ['_'] s)))) :=
    not_mem_replaceAux_single ':' ['_'] (by simp) _ _ (le_refl _)
  exact ⟨not_mem_stripLeadUnderscore _ _ hsl5, not_mem_stripLeadUnderscore _ _ hco5,
    not_mem_stripLeadUnderscore _ _ hat5⟩

/-- C9 witness: separator-freedom evaluated at a concrete label. -/
theorem c9_separator_free_witness :
    '/' ∉ (compute_package_version_name "@//src/utils:utils").data :=
  (c9_separator_free "@//src/utils:utils").1

/-- C5 witness: the amended filter characterizations evaluated at a
concrete package list. -/
theorem c5_amended_witness :
    GoPackage.mk (some 2) true ∈ filterValidPackages [GoPackage.mk (some 2) true] ∧
    GoPackage.mk (some 2) true ∈ filterValidSimple [GoPackage.mk (some 2) true] :=
  ⟨(c5_amended [GoPackage.mk (some 2) true] (GoPackage.mk (some 2) true)).1.mpr
      ⟨by decide, Or.inl (by decide)⟩,
    (c5_amended [GoPackage.mk (some 2) true] (GoPackage.mk (some 2) true)).2.mpr
      ⟨by decide, by decide, by decide⟩⟩
